import Mathlib

/-!
Verification of the content-moderation microservice core.

The development shallowly embeds the repository code:
* `src/services/cache_service.py` — `InMemoryCache` (a Python `OrderedDict`
  plus an expiry `dict`, LRU eviction, lazy TTL expiry) and `CacheService`
  (one-time backend selection with permanent in-memory fallback);
* `src/routes/content_routes.py` — the sensitivity-threshold table, the
  decode / age / nudity decision pipeline `_sync_process_image_optimized`,
  and the lazy singleton loader `get_nude_detector` (as an interleaving
  state machine over its shared globals).

Python dicts are modelled as association lists over `String` keys; for an
`OrderedDict` the list order is the recency order (head = least recently
used, tail = most recently used).  Fallible statements (`del d[k]`,
`next(iter(d))`) are modelled in `Except`, an error standing for the raised
`KeyError` / `StopIteration`.  Clock readings (`datetime.now()`) are passed
in explicitly as a `Nat` parameter.  Python floats become `ℚ`.
-/

/-- Keys of an association list, in binding order. -/
def keysOf {α : Type} (l : List (String × α)) : List String :=
  l.map Prod.fst

/-- Python `del d[k]` (or a membership-guarded `del`): remove the binding of
`k`; the identity when `k` is absent. -/
def aerase {α : Type} (k : String) : List (String × α) → List (String × α)
  | [] => []
  | p :: t => if p.1 = k then aerase k t else p :: aerase k t

/-- Python `d[k]` read / `d.get(k)`: the value bound to `k`, if any. -/
def alookup {α : Type} (k : String) : List (String × α) → Option α
  | [] => none
  | (k₁, v) :: t => if k₁ = k then some v else alookup k t

/-- Python `d[k] = v` followed by `d.move_to_end(k)` on an `OrderedDict`:
remove any existing binding of `k` and append the new binding at the
most-recently-used end. -/
def touch {α : Type} (k : String) (v : α) (l : List (String × α)) : List (String × α) :=
  aerase k l ++ [(k, v)]

/-- The in-memory fallback cache of `src/services/cache_service.py`
(class `InMemoryCache`): an `OrderedDict` `cache` in recency order (head =
least recently used, tail = most recently used), a dict `expiry` mapping each
key to its absolute expiry instant, and the capacity bound `max_size`. -/
structure InMemoryCache (V : Type) where
  cache : List (String × V)
  expiry : List (String × Nat)
  max_size : Nat

/-- `InMemoryCache.__init__`: empty maps with the given `max_size`
(the source default and the `CacheService` instantiation both use 1000). -/
def InMemoryCache.empty (V : Type) (max_size : Nat) : InMemoryCache V :=
  ⟨[], [], max_size⟩

/-- The non-expired tail of `InMemoryCache.get` (source lines 33-37): a hit
moves the key to the most-recently-used end and returns its value; an absent
key is a miss leaving the state unchanged. -/
def InMemoryCache.getFresh {V : Type} (k : String) (c : InMemoryCache V) :
    Option V × InMemoryCache V :=
  match alookup k c.cache with
  | some v => (some v, ⟨touch k v c.cache, c.expiry, c.max_size⟩)
  | none => (none, c)

/-- `InMemoryCache.get`: first the lazy expiry check — when the key has an
expiry instant strictly in the past, `del self.cache[key]` (a `KeyError`, the
`Except` error, if the key is unexpectedly absent from `cache`) and
`del self.expiry[key]`, then miss; otherwise continue with `getFresh`. -/
def InMemoryCache.get {V : Type} (now : Nat) (k : String) (c : InMemoryCache V) :
    Except Unit (Option V × InMemoryCache V) :=
  match alookup k c.expiry with
  | some e =>
      if e < now then
        match alookup k c.cache with
        | some _ => .ok (none, ⟨aerase k c.cache, aerase k c.expiry, c.max_size⟩)
        | none => .error ()
      else .ok (c.getFresh k)
  | none => .ok (c.getFresh k)

/-- The unconditional tail of `InMemoryCache.set` (source lines 49-51):
`self.cache[key] = value`, `self.expiry[key] = now + ttl`,
`self.cache.move_to_end(key)`. -/
def InMemoryCache.insertBind {V : Type} (now : Nat) (k : String) (v : V) (ttl : Nat)
    (c : InMemoryCache V) : InMemoryCache V :=
  ⟨touch k v c.cache, touch k (now + ttl) c.expiry, c.max_size⟩

/-- `InMemoryCache.set`: when the cache is at capacity and the key is new,
evict the head key (`next(iter(self.cache))` — a `StopIteration`, the
`Except` error, on an empty dict) from both maps; then bind the key in both
maps and move it to the most-recently-used end. -/
def InMemoryCache.set {V : Type} (now : Nat) (k : String) (v : V) (ttl : Nat)
    (c : InMemoryCache V) : Except Unit (InMemoryCache V) :=
  if c.max_size ≤ c.cache.length ∧ k ∉ keysOf c.cache then
    match c.cache with
    | [] => .error ()
    | p :: _ =>
        .ok (InMemoryCache.insertBind now k v ttl
          ⟨aerase p.1 c.cache, aerase p.1 c.expiry, c.max_size⟩)
  else .ok (InMemoryCache.insertBind now k v ttl c)

/-- `InMemoryCache.delete`: membership-guarded `del` from both maps. -/
def InMemoryCache.delete {V : Type} (k : String) (c : InMemoryCache V) : InMemoryCache V :=
  { c with cache := aerase k c.cache, expiry := aerase k c.expiry }

/-- `InMemoryCache.size`: `len(self.cache)`. -/
def InMemoryCache.size {V : Type} (c : InMemoryCache V) : Nat :=
  c.cache.length

/-- Well-formedness of an `InMemoryCache` state: both dicts have duplicate-free
keys (automatic for Python dicts) and bind exactly the same key set. -/
def InMemoryCache.WF {V : Type} (c : InMemoryCache V) : Prop :=
  (keysOf c.cache).Nodup ∧ (keysOf c.expiry).Nodup ∧
    ∀ k₁, k₁ ∈ keysOf c.cache ↔ k₁ ∈ keysOf c.expiry

/-- One caller-visible operation on the in-memory cache, with the clock
reading at which it runs. -/
inductive CacheOp (V : Type) where
  | get (now : Nat) (k : String)
  | set (now : Nat) (k : String) (v : V) (ttl : Nat)
  | del (k : String)

/-- Run one operation, discarding the read result of a `get`. -/
def InMemoryCache.applyOp {V : Type} (c : InMemoryCache V) :
    CacheOp V → Except Unit (InMemoryCache V)
  | .get now k => (c.get now k).map Prod.snd
  | .set now k v ttl => c.set now k v ttl
  | .del k => .ok (c.delete k)

/-- Run a sequence of operations, stopping at the first raised error. -/
def InMemoryCache.runOps {V : Type} (c : InMemoryCache V) :
    List (CacheOp V) → Except Unit (InMemoryCache V)
  | [] => .ok c
  | op :: ops =>
      match c.applyOp op with
      | .ok c₁ => c₁.runOps ops
      | .error e => .error e

/-- The cache facade of `src/services/cache_service.py` (class
`CacheService`): the backend-selection flag `use_redis`, the remote client
handle (opaque, present only when construction and the ping succeeded) and
the local bounded store.  The remote backend itself is an external
collaborator; its behaviour is abstracted by oracle parameters on the
operations below. -/
structure CacheService (V : Type) where
  use_redis : Bool
  redis_client : Option Unit
  memory_cache : InMemoryCache V

/-- `CacheService.__init__` plus `_connect` (source lines 69-120):
`redis_client = None`, `memory_cache = InMemoryCache(max_size=1000)`,
`use_redis = False`, then one connection attempt whose outcome (package
import, `redis.from_url`, and the `ping`) is the `connectOutcome` argument;
any failure leaves the in-memory configuration in place.  `_connect` is
called only here, so the selection is permanent. -/
def CacheService.new (V : Type) (connectOutcome : Except String Unit) : CacheService V :=
  match connectOutcome with
  | .ok c => ⟨true, some c, InMemoryCache.empty V 1000⟩
  | .error _ => ⟨false, none, InMemoryCache.empty V 1000⟩

/-- `CacheService.get` (source lines 122-147): dispatch on
`self.use_redis and self.redis_client`; the remote branch is the oracle
`rget`; the local branch reads the in-memory store, the enclosing
`except Exception` turning a raised error into a `None` result with the
state unchanged. -/
def CacheService.get {V : Type} (rget : String → Option V) (now : Nat) (k : String)
    (svc : CacheService V) : Option V × CacheService V :=
  if svc.use_redis ∧ svc.redis_client.isSome then (rget k, svc)
  else
    match svc.memory_cache.get now k with
    | .ok (v, m) => (v, ⟨svc.use_redis, svc.redis_client, m⟩)
    | .error _ => (none, svc)

/-- `CacheService.set` (source lines 149-169): the remote branch serializes
and writes to the remote store, leaving the local object unchanged; the
local branch writes the in-memory store, the enclosing `except Exception`
swallowing a raised error. -/
def CacheService.set {V : Type} (now : Nat) (k : String) (v : V) (ttl : Nat)
    (svc : CacheService V) : CacheService V :=
  if svc.use_redis ∧ svc.redis_client.isSome then svc
  else
    match svc.memory_cache.set now k v ttl with
    | .ok m => ⟨svc.use_redis, svc.redis_client, m⟩
    | .error _ => svc

/-- `CacheService.delete` (source lines 171-181). -/
def CacheService.delete {V : Type} (k : String) (svc : CacheService V) : CacheService V :=
  if svc.use_redis ∧ svc.redis_client.isSome then svc
  else ⟨svc.use_redis, svc.redis_client, svc.memory_cache.delete k⟩

/-- The fields of the `get_stats` result that the active backend determines
(source lines 183-203). -/
structure CacheStats where
  enabled : Bool
  backend : String
  total_keys : Nat
  stats_max_size : Option Nat

/-- `CacheService.get_stats`: the remote branch reports backend `"redis"`
with the remote key count (oracle `rsize`); the local branch reports backend
`"in-memory"` with the local size and `max_size`. -/
def CacheService.get_stats {V : Type} (rsize : Nat) (svc : CacheService V) : CacheStats :=
  if svc.use_redis ∧ svc.redis_client.isSome then ⟨true, "redis", rsize, none⟩
  else ⟨true, "in-memory", svc.memory_cache.size, some svc.memory_cache.max_size⟩

/-- The fixed restricted-label set `problematic_classes`
(`src/routes/content_routes.py` lines 207-208). -/
def problematic_classes : List String :=
  ["EXPOSED_ANUS", "EXPOSED_BUTTOCKS", "EXPOSED_BREAST_F",
   "EXPOSED_GENITALIA_F", "EXPOSED_GENITALIA_M"]

/-- Sensitivity-profile threshold selection
(`_sync_process_image_optimized`, lines 102-114): the pair
`(nudity_threshold, age_threshold)`; any name other than `"high"` and
`"low"` takes the `else` (normal) branch. -/
def thresholds (sensitivity : String) : ℚ × ℚ :=
  if sensitivity = "high" then (45/100, 16)
  else if sensitivity = "low" then (75/100, 16)
  else (6/10, 16)

/-- The tuple `_sync_process_image_optimized` returns, plus two
instrumentation flags recording whether the age-estimation capability
(`DeepFace.analyze`) and the content-classification capability
(`get_nude_detector` / `detector.detect`) were invoked; each flag is set
exactly on the paths on which the source reaches the corresponding call. -/
structure ModerationDecision where
  image_size_kb : ℚ
  nudity_detected : Bool
  confidence_score : ℚ
  detection_details : String
  age_called : Bool
  detect_called : Bool

/-- Step 3 of `_sync_process_image_optimized` (lines 195-244), reached with
the accumulated `age_details`: classification regions are scanned once for
the running maximum confidence over all regions and for the list of
restricted-label regions strictly above `nudity_threshold`; a failure of the
capability (including detector loading) returns the zero-confidence safe
default. -/
def contentGate (sensitivity : String) (image_size_kb : ℚ) (age_details : String)
    (detectOutcome : Except String (List (String × ℚ))) : ModerationDecision :=
  match detectOutcome with
  | .error e => ⟨image_size_kb, false, 0, "Detection failed: " ++ e, true, true⟩
  | .ok detections =>
      if (detections.filter
            (fun d => decide (d.1 ∈ problematic_classes ∧ (thresholds sensitivity).1 < d.2))).isEmpty = true then
        ⟨image_size_kb, false, detections.foldl (fun m d => max m d.2) 0,
          (if age_details ≠ "" then age_details
           else "Content is safe (max confidence: " ++
             toString (detections.foldl (fun m d => max m d.2) 0) ++ ")"),
          true, true⟩
      else
        ⟨image_size_kb, true, detections.foldl (fun m d => max m d.2) 0,
          (if age_details ≠ "" then age_details ++ " | " else "") ++
            "Nudity: " ++ String.intercalate ", "
              ((detections.filter
                (fun d => decide (d.1 ∈ problematic_classes ∧
                  (thresholds sensitivity).1 < d.2))).map Prod.fst),
          true, true⟩

/-- `_sync_process_image_optimized` (lines 87-248).  The four collaborator
steps are passed in as outcomes: base64 decoding (success carries
`image_size_kb = len(decoded)/1024`), PIL image loading/resizing, the
DeepFace age estimate (success carries `None` when no face was found), and
the NudeNet region list.  Decode failure returns the fail-open default with
size 0; image-load failure returns it with the decoded size; an age estimate
strictly below `age_threshold` short-circuits to the not-safe verdict with
confidence 1.0 before any detector call; an age-gate failure or absent
estimate only sets `age_details` and continues to the content gate. -/
def sync_process_image (sensitivity : String)
    (decodeOutcome : Except String ℚ)
    (loadOutcome : Except String Unit)
    (ageOutcome : Except String (Option ℚ))
    (detectOutcome : Except String (List (String × ℚ))) : ModerationDecision :=
  match decodeOutcome with
  | .error _ => ⟨0, false, 0, "Base64 decode failed", false, false⟩
  | .ok image_size_kb =>
      match loadOutcome with
      | .error e => ⟨image_size_kb, false, 0, "Image load failed: " ++ e, false, false⟩
      | .ok _ =>
          match ageOutcome with
          | .ok (some estimated_age) =>
              if estimated_age < (thresholds sensitivity).2 then
                ⟨image_size_kb, true, 1,
                  "UNDERAGE DETECTED: Estimated age " ++ toString estimated_age ++
                    " (< " ++ toString (thresholds sensitivity).2 ++ ")", true, false⟩
              else
                contentGate sensitivity image_size_kb
                  ("Age OK: " ++ toString estimated_age) detectOutcome
          | .ok none =>
              contentGate sensitivity image_size_kb
                "Age verification: No face detected" detectOutcome
          | .error e =>
              contentGate sensitivity image_size_kb
                ("Age verification failed: " ++ e) detectOutcome

/-- Program counter of one thread executing `get_nude_detector`
(`src/routes/content_routes.py` lines 36-59), one location per shared-state
access: the `_detector_loading` test (line 41), the polling loop body (lines
42-43), the `_nude_detector is None` test (line 46), `_detector_loading =
True` (line 47), the `NudeDetector()` construction (lines 50-51, taken here
as always succeeding), the `finally` reset (line 57), and the return. -/
inductive LoaderPC where
  | checkLoading
  | waitPoll
  | checkNone
  | setLoading
  | construct
  | clearLoading
  | ret
deriving DecidableEq

/-- The module globals shared by every thread: whether `_nude_detector` is
non-`None`, the `_detector_loading` flag, and an instrumentation counter of
`NudeDetector()` constructor runs. -/
structure LoaderShared where
  detectorLoaded : Bool
  loading : Bool
  constructions : Nat
deriving DecidableEq

/-- A configuration: the shared globals plus the location of each thread. -/
structure LoaderConfig where
  shared : LoaderShared
  threads : List LoaderPC
deriving DecidableEq

/-- One interleaving step: thread `i` executes the statement at its current
location.  Under the CPython execution model each individual global read or
write is atomic but the sequence is not, which is exactly the granularity of
`LoaderPC`. -/
def loaderStep (cfg : LoaderConfig) (i : Nat) : LoaderConfig :=
  match cfg.threads[i]? with
  | none => cfg
  | some pc =>
      match pc with
      | .checkLoading =>
          if cfg.shared.loading then ⟨cfg.shared, cfg.threads.set i .waitPoll⟩
          else ⟨cfg.shared, cfg.threads.set i .checkNone⟩
      | .waitPoll =>
          if cfg.shared.loading ∧ ¬cfg.shared.detectorLoaded then cfg
          else ⟨cfg.shared, cfg.threads.set i .ret⟩
      | .checkNone =>
          if cfg.shared.detectorLoaded then ⟨cfg.shared, cfg.threads.set i .ret⟩
          else ⟨cfg.shared, cfg.threads.set i .setLoading⟩
      | .setLoading =>
          ⟨⟨cfg.shared.detectorLoaded, true, cfg.shared.constructions⟩,
            cfg.threads.set i .construct⟩
      | .construct =>
          ⟨⟨true, cfg.shared.loading, cfg.shared.constructions + 1⟩,
            cfg.threads.set i .clearLoading⟩
      | .clearLoading =>
          ⟨⟨cfg.shared.detectorLoaded, false, cfg.shared.constructions⟩,
            cfg.threads.set i .ret⟩
      | .ret => cfg

/-- Run a schedule: the list of thread indices, executed left to right. -/
def loaderRun (cfg : LoaderConfig) (sched : List Nat) : LoaderConfig :=
  sched.foldl loaderStep cfg

/-- Two threads, both about to enter `get_nude_detector`, with the module
globals in their import-time state (`_nude_detector = None`,
`_detector_loading = False`). -/
def loaderInitTwo : LoaderConfig :=
  ⟨⟨false, false, 0⟩, [.checkLoading, .checkLoading]⟩

theorem keysOf_append {α : Type} (l₁ l₂ : List (String × α)) :
    keysOf (l₁ ++ l₂) = keysOf l₁ ++ keysOf l₂ :=
  List.map_append _ _ _

theorem mem_keysOf_cons {α : Type} (p : String × α) (t : List (String × α)) (k₁ : String) :
    k₁ ∈ keysOf (p :: t) ↔ k₁ = p.1 ∨ k₁ ∈ keysOf t := by
  simp [keysOf]

theorem mem_keysOf_aerase {α : Type} (k k₁ : String) (l : List (String × α)) :
    k₁ ∈ keysOf (aerase k l) ↔ k₁ ∈ keysOf l ∧ k₁ ≠ k := by
  induction l with
  | nil => simp [keysOf, aerase]
  | cons p t ih =>
    by_cases hp : p.1 = k
    · rw [show aerase k (p :: t) = aerase k t from by simp [aerase, hp]]
      rw [ih]
      constructor
      · rintro ⟨hm, hne⟩
        exact ⟨(mem_keysOf_cons p t k₁).2 (Or.inr hm), hne⟩
      · rintro ⟨hm, hne⟩
        rcases (mem_keysOf_cons p t k₁).1 hm with h1 | h2
        · exact absurd (h1.trans hp) hne
        · exact ⟨h2, hne⟩
    · rw [show aerase k (p :: t) = p :: aerase k t from by simp [aerase, hp]]
      constructor
      · intro h
        rcases (mem_keysOf_cons p _ k₁).1 h with h1 | h2
        · exact ⟨(mem_keysOf_cons p t k₁).2 (Or.inl h1), by simpa [h1] using hp⟩
        · rcases ih.1 h2 with ⟨hm, hne⟩
          exact ⟨(mem_keysOf_cons p t k₁).2 (Or.inr hm), hne⟩
      · rintro ⟨hm, hne⟩
        rcases (mem_keysOf_cons p t k₁).1 hm with h1 | h2
        · exact (mem_keysOf_cons p _ k₁).2 (Or.inl h1)
        · exact (mem_keysOf_cons p _ k₁).2 (Or.inr (ih.2 ⟨h2, hne⟩))

theorem aerase_of_not_mem {α : Type} (k : String) (l : List (String × α))
    (h : k ∉ keysOf l) : aerase k l = l := by
  induction l with
  | nil => rfl
  | cons p t ih =>
    simp only [keysOf, List.map_cons, List.mem_cons, not_or] at h
    have hp : p.1 ≠ k := fun hc => h.1 hc.symm
    rw [show aerase k (p :: t) = p :: aerase k t from by simp [aerase, hp]]
    rw [ih (by simpa [keysOf] using h.2)]

theorem nodup_keysOf_aerase {α : Type} (k : String) (l : List (String × α))
    (h : (keysOf l).Nodup) : (keysOf (aerase k l)).Nodup := by
  induction l with
  | nil => simp [keysOf, aerase]
  | cons p t ih =>
    simp only [keysOf, List.map_cons, List.nodup_cons] at h
    by_cases hp : p.1 = k
    · rw [show aerase k (p :: t) = aerase k t from by simp [aerase, hp]]
      exact ih h.2
    · rw [show aerase k (p :: t) = p :: aerase k t from by simp [aerase, hp]]
      simp only [keysOf, List.map_cons, List.nodup_cons]
      refine ⟨?_, by simpa [keysOf] using ih h.2⟩
      intro hc
      exact h.1 ((mem_keysOf_aerase k p.1 t).1 (by simpa [keysOf] using hc)).1

theorem length_aerase_le {α : Type} (k : String) (l : List (String × α)) :
    (aerase k l).length ≤ l.length := by
  induction l with
  | nil => simp [aerase]
  | cons p t ih =>
    by_cases hp : p.1 = k
    · rw [show aerase k (p :: t) = aerase k t from by simp [aerase, hp]]
      exact ih.trans (Nat.le_succ _)
    · rw [show aerase k (p :: t) = p :: aerase k t from by simp [aerase, hp]]
      simpa using ih

theorem length_aerase_of_mem {α : Type} (k : String) (l : List (String × α))
    (hnd : (keysOf l).Nodup) (h : k ∈ keysOf l) :
    (aerase k l).length + 1 = l.length := by
  induction l with
  | nil => simp [keysOf] at h
  | cons p t ih =>
    simp only [keysOf, List.map_cons, List.nodup_cons] at hnd
    by_cases hp : p.1 = k
    · rw [show aerase k (p :: t) = aerase k t from by simp [aerase, hp]]
      rw [aerase_of_not_mem k t (by simpa [keysOf, hp] using hnd.1)]
      simp
    · have hk : k ∈ keysOf t := by
        rcases (by simpa [keysOf] using h : k = p.1 ∨ k ∈ keysOf t) with h1 | h2
        · exact absurd h1.symm hp
        · exact h2
      rw [show aerase k (p :: t) = p :: aerase k t from by simp [aerase, hp]]
      simp only [List.length_cons]
      rw [← ih hnd.2 hk]

theorem alookup_eq_none_iff {α : Type} (k : String) (l : List (String × α)) :
    alookup k l = none ↔ k ∉ keysOf l := by
  induction l with
  | nil => simp [alookup, keysOf]
  | cons p t ih =>
    rcases p with ⟨k₁, v⟩
    by_cases hp : k₁ = k
    · simp [alookup, hp, keysOf]
    · simp only [alookup, hp, if_false]
      simp only [keysOf, List.map_cons, List.mem_cons, not_or]
      constructor
      · intro h
        exact ⟨fun hc => hp hc.symm, by simpa [keysOf] using ih.1 h⟩
      · intro h
        exact ih.2 (by simpa [keysOf] using h.2)

theorem alookup_isSome_of_mem {α : Type} (k : String) (l : List (String × α))
    (h : k ∈ keysOf l) : ∃ v, alookup k l = some v := by
  rcases ho : alookup k l with _ | v
  · exact absurd h ((alookup_eq_none_iff k l).1 ho)
  · exact ⟨v, rfl⟩

theorem mem_of_alookup_eq_some {α : Type} (k : String) (v : α) (l : List (String × α))
    (h : alookup k l = some v) : k ∈ keysOf l := by
  by_contra hc
  rw [(alookup_eq_none_iff k l).2 hc] at h
  exact Option.noConfusion h

theorem alookup_append_of_none {α : Type} (k : String) (l₁ l₂ : List (String × α))
    (h : alookup k l₁ = none) : alookup k (l₁ ++ l₂) = alookup k l₂ := by
  induction l₁ with
  | nil => simp
  | cons p t ih =>
    rcases p with ⟨k₁, v⟩
    by_cases hp : k₁ = k
    · simp [alookup, hp] at h
    · simp only [List.cons_append, alookup, hp, if_false] at h ⊢
      exact ih h

theorem alookup_aerase_self {α : Type} (k : String) (l : List (String × α)) :
    alookup k (aerase k l) = none := by
  rw [alookup_eq_none_iff]
  intro hc
  exact ((mem_keysOf_aerase k k l).1 hc).2 rfl

theorem alookup_touch_self {α : Type} (k : String) (v : α) (l : List (String × α)) :
    alookup k (touch k v l) = some v := by
  unfold touch
  rw [alookup_append_of_none k _ _ (alookup_aerase_self k l)]
  simp [alookup]

theorem keysOf_touch {α : Type} (k : String) (v : α) (l : List (String × α)) :
    keysOf (touch k v l) = keysOf (aerase k l) ++ [k] := by
  unfold touch
  rw [keysOf_append]
  rfl

theorem mem_keysOf_touch {α : Type} (k k₁ : String) (v : α) (l : List (String × α)) :
    k₁ ∈ keysOf (touch k v l) ↔ k₁ ∈ keysOf l ∨ k₁ = k := by
  rw [keysOf_touch]
  simp only [List.mem_append, List.mem_singleton, mem_keysOf_aerase]
  constructor
  · rintro (⟨hm, _⟩ | he)
    · exact Or.inl hm
    · exact Or.inr he
  · rintro (hm | he)
    · by_cases hk : k₁ = k
      · exact Or.inr hk
      · exact Or.inl ⟨hm, hk⟩
    · exact Or.inr he

theorem nodup_keysOf_touch {α : Type} (k : String) (v : α) (l : List (String × α))
    (h : (keysOf l).Nodup) : (keysOf (touch k v l)).Nodup := by
  rw [keysOf_touch]
  apply List.Nodup.append (nodup_keysOf_aerase k l h) (by simp : ([k] : List String).Nodup)
  intro a ha hb
  rw [List.mem_singleton] at hb
  rw [hb] at ha
  exact ((mem_keysOf_aerase k k l).1 ha).2 rfl

theorem length_touch_of_not_mem {α : Type} (k : String) (v : α) (l : List (String × α))
    (h : k ∉ keysOf l) : (touch k v l).length = l.length + 1 := by
  unfold touch
  rw [aerase_of_not_mem k l h]
  simp

theorem length_touch_of_mem {α : Type} (k : String) (v : α) (l : List (String × α))
    (hnd : (keysOf l).Nodup) (h : k ∈ keysOf l) : (touch k v l).length = l.length := by
  unfold touch
  rw [List.length_append]
  simpa using length_aerase_of_mem k l hnd h

theorem InMemoryCache.empty_WF (V : Type) (m : Nat) : (InMemoryCache.empty V m).WF := by
  refine ⟨List.nodup_nil, List.nodup_nil, ?_⟩
  intro k₁
  simp [InMemoryCache.empty, keysOf]

theorem InMemoryCache.getFresh_WF {V : Type} (k : String) (c : InMemoryCache V)
    (hwf : c.WF) :
    (c.getFresh k).2.WF ∧ (c.getFresh k).2.size ≤ c.size ∧
      (c.getFresh k).2.max_size = c.max_size := by
  obtain ⟨hnc, hne, hiff⟩ := hwf
  unfold InMemoryCache.getFresh
  rcases hc : alookup k c.cache with _ | v
  · exact ⟨⟨hnc, hne, hiff⟩, le_refl _, rfl⟩
  · have hmem : k ∈ keysOf c.cache := mem_of_alookup_eq_some k v c.cache hc
    refine ⟨⟨nodup_keysOf_touch k v c.cache hnc, hne, ?_⟩, ?_, rfl⟩
    · intro k₁
      rw [show keysOf (⟨touch k v c.cache, c.expiry, c.max_size⟩ :
            InMemoryCache V).cache = keysOf (touch k v c.cache) from rfl]
      rw [mem_keysOf_touch]
      constructor
      · rintro (hm | he)
        · exact (hiff k₁).1 hm
        · rw [he]; exact (hiff k).1 hmem
      · intro hm
        exact Or.inl ((hiff k₁).2 hm)
    · show (touch k v c.cache).length ≤ c.cache.length
      rw [length_touch_of_mem k v c.cache hnc hmem]

theorem InMemoryCache.get_ok {V : Type} (now : Nat) (k : String) (c : InMemoryCache V)
    (hwf : c.WF) :
    ∃ r : Option V × InMemoryCache V, c.get now k = .ok r ∧ r.2.WF ∧
      r.2.size ≤ c.size ∧ r.2.max_size = c.max_size := by
  have hfresh := InMemoryCache.getFresh_WF k c hwf
  obtain ⟨hnc, hne, hiff⟩ := hwf
  unfold InMemoryCache.get
  rcases he : alookup k c.expiry with _ | e
  · exact ⟨c.getFresh k, rfl, hfresh⟩
  · by_cases hlt : e < now
    · simp only [hlt, if_true]
      have hkc : k ∈ keysOf c.cache :=
        (hiff k).2 (mem_of_alookup_eq_some k e c.expiry he)
      obtain ⟨v, hv⟩ := alookup_isSome_of_mem k c.cache hkc
      rw [hv]
      refine ⟨(none, ⟨aerase k c.cache, aerase k c.expiry, c.max_size⟩), rfl, ?_, ?_, rfl⟩
      · refine ⟨nodup_keysOf_aerase k c.cache hnc, nodup_keysOf_aerase k c.expiry hne, ?_⟩
        intro k₁
        show k₁ ∈ keysOf (aerase k c.cache) ↔ k₁ ∈ keysOf (aerase k c.expiry)
        rw [mem_keysOf_aerase, mem_keysOf_aerase]
        exact and_congr_left (fun _ => hiff k₁)
      · exact length_aerase_le k c.cache
    · simp only [hlt, if_false]
      exact ⟨c.getFresh k, rfl, hfresh⟩

theorem InMemoryCache.insertBind_WF {V : Type} (now : Nat) (k : String) (v : V) (ttl : Nat)
    (c : InMemoryCache V) (hwf : c.WF) : (InMemoryCache.insertBind now k v ttl c).WF := by
  obtain ⟨hnc, hne, hiff⟩ := hwf
  refine ⟨nodup_keysOf_touch k v c.cache hnc, nodup_keysOf_touch k (now + ttl) c.expiry hne, ?_⟩
  intro k₁
  show k₁ ∈ keysOf (touch k v c.cache) ↔ k₁ ∈ keysOf (touch k (now + ttl) c.expiry)
  rw [mem_keysOf_touch, mem_keysOf_touch]
  exact or_congr_left (hiff k₁)

theorem InMemoryCache.set_ok {V : Type} (now : Nat) (k : String) (v : V) (ttl : Nat)
    (c : InMemoryCache V) (hwf : c.WF) (hm : 1 ≤ c.max_size) (hs : c.size ≤ c.max_size) :
    ∃ c₁ : InMemoryCache V, c.set now k v ttl = .ok c₁ ∧ c₁.WF ∧
      c₁.size ≤ c.max_size ∧ c₁.max_size = c.max_size := by
  obtain ⟨hnc, hne, hiff⟩ := hwf
  simp only [InMemoryCache.size] at hs
  unfold InMemoryCache.set
  by_cases hcond : c.max_size ≤ c.cache.length ∧ k ∉ keysOf c.cache
  · rw [if_pos hcond]
    rcases hcache : c.cache with _ | ⟨p, rest⟩
    · exfalso
      have : c.max_size ≤ 0 := by simpa [hcache] using hcond.1
      omega
    · rw [hcache] at hnc hiff hs
      have hmlen : c.max_size ≤ (p :: rest).length := by
        have := hcond.1
        rw [hcache] at this
        exact this
      have hknot₀ : k ∉ keysOf (p :: rest) := by
        have := hcond.2
        rw [hcache] at this
        exact this
      have hhead : p.1 ∈ keysOf (p :: rest) := (mem_keysOf_cons p rest p.1).2 (Or.inl rfl)
      have hlen : (aerase p.1 (p :: rest)).length + 1 = (p :: rest).length :=
        length_aerase_of_mem p.1 (p :: rest) hnc hhead
      have hwf' : (⟨aerase p.1 (p :: rest), aerase p.1 c.expiry, c.max_size⟩ :
          InMemoryCache V).WF := by
        refine ⟨nodup_keysOf_aerase p.1 (p :: rest) hnc,
          nodup_keysOf_aerase p.1 c.expiry hne, ?_⟩
        intro k₁
        show k₁ ∈ keysOf (aerase p.1 (p :: rest)) ↔ k₁ ∈ keysOf (aerase p.1 c.expiry)
        rw [mem_keysOf_aerase, mem_keysOf_aerase]
        exact and_congr_left (fun _ => hiff k₁)
      refine ⟨_, rfl, InMemoryCache.insertBind_WF now k v ttl _ hwf', ?_, rfl⟩
      have hknot : k ∉ keysOf (aerase p.1 (p :: rest)) := by
        rw [mem_keysOf_aerase]
        intro hc
        exact hknot₀ hc.1
      show (touch k v (aerase p.1 (p :: rest))).length ≤ c.max_size
      rw [length_touch_of_not_mem k v _ hknot]
      omega
  · rw [if_neg hcond]
    refine ⟨_, rfl, InMemoryCache.insertBind_WF now k v ttl c ⟨hnc, hne, hiff⟩, ?_, rfl⟩
    show (touch k v c.cache).length ≤ c.max_size
    by_cases hk : k ∈ keysOf c.cache
    · rw [length_touch_of_mem k v c.cache hnc hk]
      exact hs
    · have hlt : ¬ c.max_size ≤ c.cache.length := fun hle => hcond ⟨hle, hk⟩
      rw [length_touch_of_not_mem k v c.cache hk]
      omega

theorem InMemoryCache.delete_WF {V : Type} (k : String) (c : InMemoryCache V)
    (hwf : c.WF) : (c.delete k).WF ∧ (c.delete k).size ≤ c.size ∧
      (c.delete k).max_size = c.max_size := by
  obtain ⟨hnc, hne, hiff⟩ := hwf
  refine ⟨⟨nodup_keysOf_aerase k c.cache hnc, nodup_keysOf_aerase k c.expiry hne, ?_⟩, ?_, rfl⟩
  · intro k₁
    show k₁ ∈ keysOf (aerase k c.cache) ↔ k₁ ∈ keysOf (aerase k c.expiry)
    rw [mem_keysOf_aerase, mem_keysOf_aerase]
    exact and_congr_left (fun _ => hiff k₁)
  · exact length_aerase_le k c.cache

theorem InMemoryCache.applyOp_ok {V : Type} (c : InMemoryCache V) (op : CacheOp V)
    (hwf : c.WF) (hm : 1 ≤ c.max_size) (hs : c.size ≤ c.max_size) :
    ∃ c₁ : InMemoryCache V, c.applyOp op = .ok c₁ ∧ c₁.WF ∧
      c₁.size ≤ c₁.max_size ∧ c₁.max_size = c.max_size := by
  rcases op with ⟨now, k⟩ | ⟨now, k, v, ttl⟩ | ⟨k⟩
  · obtain ⟨r, hr, hwf₁, hsz, hms⟩ := InMemoryCache.get_ok now k c hwf
    exact ⟨r.2, by simp [InMemoryCache.applyOp, hr, Except.map], hwf₁,
      by rw [hms]; exact hsz.trans hs, hms⟩
  · obtain ⟨c₁, hc₁, hwf₁, hsz, hms⟩ := InMemoryCache.set_ok now k v ttl c hwf hm hs
    exact ⟨c₁, by simp [InMemoryCache.applyOp, hc₁], hwf₁, by rw [hms]; exact hsz, hms⟩
  · obtain ⟨hwf₁, hsz, hms⟩ := InMemoryCache.delete_WF k c hwf
    exact ⟨c.delete k, rfl, hwf₁, by rw [hms]; exact hsz.trans hs, hms⟩

theorem InMemoryCache.runOps_ok {V : Type} (ops : List (CacheOp V)) (c : InMemoryCache V)
    (hwf : c.WF) (hm : 1 ≤ c.max_size) (hs : c.size ≤ c.max_size) :
    ∃ c₁ : InMemoryCache V, c.runOps ops = .ok c₁ ∧ c₁.WF ∧
      c₁.size ≤ c₁.max_size ∧ c₁.max_size = c.max_size := by
  induction ops generalizing c with
  | nil => exact ⟨c, rfl, hwf, hs, rfl⟩
  | cons op ops ih =>
    obtain ⟨c₁, hc₁, hwf₁, hs₁, hms₁⟩ := InMemoryCache.applyOp_ok c op hwf hm hs
    obtain ⟨c₂, hc₂, hwf₂, hs₂, hms₂⟩ := ih c₁ hwf₁ (by rw [hms₁]; exact hm)
      (by rw [hms₁] at hs₁; rw [hms₁]; exact hs₁)
    refine ⟨c₂, ?_, hwf₂, hs₂, hms₂.trans hms₁⟩
    simp [InMemoryCache.runOps, hc₁, hc₂]

theorem foldl_max_ge_init (l : List (String × ℚ)) (a : ℚ) :
    a ≤ l.foldl (fun m d => max m d.2) a := by
  induction l generalizing a with
  | nil => simp
  | cons d t ih => exact le_trans (le_max_left a d.2) (ih (max a d.2))

theorem foldl_max_mem_le (l : List (String × ℚ)) (d : String × ℚ) :
    d ∈ l → ∀ a : ℚ, d.2 ≤ l.foldl (fun m p => max m p.2) a := by
  induction l with
  | nil => intro hd; cases hd
  | cons p t ih =>
    intro hd a
    rcases List.mem_cons.1 hd with h1 | h2
    · rw [h1]
      exact le_trans (le_max_right a p.2) (foldl_max_ge_init t (max a p.2))
    · exact ih h2 (max a p.2)

theorem foldl_max_eq_init_or_mem (l : List (String × ℚ)) (a : ℚ) :
    l.foldl (fun m p => max m p.2) a = a ∨
      ∃ d ∈ l, l.foldl (fun m p => max m p.2) a = d.2 := by
  induction l generalizing a with
  | nil => exact Or.inl rfl
  | cons p t ih =>
    rcases ih (max a p.2) with h | ⟨d, hd, he⟩
    · rcases max_choice a p.2 with hm | hm
      · exact Or.inl (by rw [List.foldl_cons, h, hm])
      · exact Or.inr ⟨p, List.mem_cons_self p t, by rw [List.foldl_cons, h, hm]⟩
    · exact Or.inr ⟨d, List.mem_cons_of_mem p hd, he⟩

theorem filter_isEmpty_iff (pred : String × ℚ → Prop) [DecidablePred pred]
    (l : List (String × ℚ)) :
    (l.filter (fun d => decide (pred d))).isEmpty = false ↔ ∃ d ∈ l, pred d := by
  induction l with
  | nil => simp
  | cons p t ih =>
    by_cases hp : pred p
    · have hfil : (p :: t).filter (fun d => decide (pred d)) =
          p :: t.filter (fun d => decide (pred d)) := by
        rw [List.filter_cons, decide_eq_true hp]
        rfl
      rw [hfil]
      exact ⟨fun _ => ⟨p, List.mem_cons_self p t, hp⟩, fun _ => rfl⟩
    · have hfil : (p :: t).filter (fun d => decide (pred d)) =
          t.filter (fun d => decide (pred d)) := by
        rw [List.filter_cons, decide_eq_false hp]
        rfl
      rw [hfil, ih]
      constructor
      · rintro ⟨d, hd, hpd⟩
        exact ⟨d, List.mem_cons_of_mem p hd, hpd⟩
      · rintro ⟨d, hd, hpd⟩
        rcases List.mem_cons.1 hd with h1 | h2
        · rw [h1] at hpd; exact absurd hpd hp
        · exact ⟨d, h2, hpd⟩

theorem contentGate_ok_spec (s ad : String) (q : ℚ) (dets : List (String × ℚ)) :
    (contentGate s q ad (.ok dets)).nudity_detected = true ∧
        (∃ d ∈ dets, d.1 ∈ problematic_classes ∧ (thresholds s).1 < d.2) ∨
      (contentGate s q ad (.ok dets)).nudity_detected = false ∧
        ¬∃ d ∈ dets, d.1 ∈ problematic_classes ∧ (thresholds s).1 < d.2 := by
  unfold contentGate
  dsimp only
  by_cases hemp : (dets.filter
      (fun d => decide (d.1 ∈ problematic_classes ∧ (thresholds s).1 < d.2))).isEmpty = true
  · rw [if_pos hemp]
    refine Or.inr ⟨rfl, fun hx => ?_⟩
    have := (filter_isEmpty_iff
      (fun d => d.1 ∈ problematic_classes ∧ (thresholds s).1 < d.2) dets).2 hx
    rw [this] at hemp
    exact Bool.noConfusion hemp
  · rw [if_neg hemp]
    refine Or.inl ⟨rfl, ?_⟩
    exact (filter_isEmpty_iff (fun d => d.1 ∈ problematic_classes ∧ (thresholds s).1 < d.2)
      dets).1 (Bool.eq_false_iff.2 hemp)

theorem contentGate_ok_confidence (s ad : String) (q : ℚ) (dets : List (String × ℚ)) :
    (contentGate s q ad (.ok dets)).confidence_score =
      dets.foldl (fun m d => max m d.2) 0 := by
  unfold contentGate
  dsimp only
  by_cases hemp : (dets.filter
      (fun d => decide (d.1 ∈ problematic_classes ∧ (thresholds s).1 < d.2))).isEmpty = true
  · rw [if_pos hemp]
  · rw [if_neg hemp]

theorem contentGate_verdict_true_iff (s ad : String) (q : ℚ) (dets : List (String × ℚ)) :
    (contentGate s q ad (.ok dets)).nudity_detected = true ↔
      ∃ d ∈ dets, d.1 ∈ problematic_classes ∧ (thresholds s).1 < d.2 := by
  rcases contentGate_ok_spec s ad q dets with ⟨h1, h2⟩ | ⟨h1, h2⟩
  · rw [h1]
    exact ⟨fun _ => h2, fun _ => rfl⟩
  · rw [h1]
    constructor
    · intro hx; exact Bool.noConfusion hx
    · intro hx; exact absurd hx h2

theorem sync_process_age_pass (s : String) (q : ℚ)
    (ageOutcome : Except String (Option ℚ))
    (hna : ∀ a, ageOutcome = .ok (some a) → (thresholds s).2 ≤ a)
    (detectOutcome : Except String (List (String × ℚ))) :
    ∃ ad : String, sync_process_image s (.ok q) (.ok ()) ageOutcome detectOutcome =
      contentGate s q ad detectOutcome := by
  rcases ageOutcome with e | oa
  · exact ⟨"Age verification failed: " ++ e, rfl⟩
  · rcases oa with _ | a
    · exact ⟨"Age verification: No face detected", rfl⟩
    · have hge : (thresholds s).2 ≤ a := hna a rfl
      refine ⟨"Age OK: " ++ toString a, ?_⟩
      show (if a < (thresholds s).2 then _ else
        contentGate s q ("Age OK: " ++ toString a) detectOutcome) =
        contentGate s q ("Age OK: " ++ toString a) detectOutcome
      rw [if_neg (not_lt.2 hge)]

/-- C1 counterexample: for the profile name "high" the implemented threshold
selection does not yield the documented pair (0.45, 20) — the implemented
age threshold is 16, not 20 (and likewise 16, not 18, for "normal" and
"low"). -/
theorem thresholds_high_not_documented : thresholds "high" ≠ (45/100, 20) := by
  intro h
  have h2 : (16 : ℚ) = 20 := by
    have hp := congrArg Prod.snd h
    have hl : (thresholds "high").2 = 16 := rfl
    rw [hl] at hp
    exact hp
  norm_num at h2

/-- C1 (amended): each of the three profile names deterministically yields
its implemented pair — high: (0.45, 16), normal: (0.6, 16), low: (0.75, 16)
— and, the selection being a function of the name alone, no other
combination is reachable for these profile names. -/
theorem thresholds_implemented_values :
    thresholds "high" = (45/100, 16) ∧ thresholds "normal" = (6/10, 16) ∧
      thresholds "low" = (75/100, 16) :=
  ⟨rfl, rfl, rfl⟩

/-- C2: when the age gate yields an estimate strictly below the selected age
threshold, the pipeline returns verdict true with confidence 1.0 and the
underage details string, and the content-classification capability is never
invoked for the request: its instrumentation flag is false and the whole
result is independent of the detector outcome, which remains a free
argument. -/
theorem underage_short_circuit (s : String) (q a : ℚ)
    (detectOutcome : Except String (List (String × ℚ)))
    (h : a < (thresholds s).2) :
    sync_process_image s (.ok q) (.ok ()) (.ok (some a)) detectOutcome =
      ⟨q, true, 1,
        "UNDERAGE DETECTED: Estimated age " ++ toString a ++
          " (< " ++ toString (thresholds s).2 ++ ")", true, false⟩ := by
  show (if a < (thresholds s).2 then _ else _) = _
  rw [if_pos h]

/-- C2 witness: profile "normal", size 1 KB, estimated age 10, detector
outcome an empty region list. -/
theorem underage_short_circuit_witness :
    (10 : ℚ) < (thresholds "normal").2 ∧
      sync_process_image "normal" (.ok 1) (.ok ()) (.ok (some 10)) (.ok []) =
        ⟨1, true, 1,
          "UNDERAGE DETECTED: Estimated age " ++ toString (10 : ℚ) ++
            " (< " ++ toString (thresholds "normal").2 ++ ")", true, false⟩ :=
  ⟨by decide, underage_short_circuit "normal" 1 10 (.ok []) (by decide)⟩

/-- C3: an input failing the decode gate — base64 decoding fails, or image
loading fails — returns verdict false with confidence 0.0, and neither the
age-estimation capability nor the content-classification capability is
invoked: both instrumentation flags are false and both outcomes remain free
arguments of the statement. -/
theorem decode_failure_fail_open (s e : String) (q : ℚ)
    (loadOutcome : Except String Unit) (ageOutcome : Except String (Option ℚ))
    (detectOutcome : Except String (List (String × ℚ))) :
    sync_process_image s (.error e) loadOutcome ageOutcome detectOutcome =
        ⟨0, false, 0, "Base64 decode failed", false, false⟩ ∧
      sync_process_image s (.ok q) (.error e) ageOutcome detectOutcome =
        ⟨q, false, 0, "Image load failed: " ++ e, false, false⟩ :=
  ⟨rfl, rfl⟩

/-- C6: evaluating `get_nude_detector` on the interleaving in which both
threads pass the `_detector_loading` test and the `_nude_detector is None`
test before either sets the flag: the `NudeDetector()` construction runs
twice, and both callers return — a concrete schedule on which the code
performs two underlying constructions instead of the documented single
one. -/
theorem get_nude_detector_double_construction :
    (loaderRun loaderInitTwo [0, 0, 1, 1, 0, 0, 0, 1, 1, 1]).shared.constructions = 2 ∧
      (loaderRun loaderInitTwo [0, 0, 1, 1, 0, 0, 0, 1, 1, 1]).threads =
        [LoaderPC.ret, LoaderPC.ret] := by
  decide

/-- C5 counterexample: with profile "normal", a failing age-estimation
capability and a classification outcome containing ("EXPOSED_BREAST_F", 0.8),
the returned verdict is true — an age-estimation failure does not yield a
verdict-false decision, contrary to the claim's universal reading. -/
theorem age_failure_not_verdict_false :
    ¬ (sync_process_image "normal" (.ok 1) (.ok ()) (.error "age backend down")
        (.ok [("EXPOSED_BREAST_F", 8/10)])).nudity_detected = false := by
  have hred : sync_process_image "normal" (.ok 1) (.ok ()) (.error "age backend down")
      (.ok [("EXPOSED_BREAST_F", 8/10)]) =
      contentGate "normal" 1 ("Age verification failed: " ++ "age backend down")
        (.ok [("EXPOSED_BREAST_F", 8/10)]) := rfl
  have ht : (contentGate "normal" 1 ("Age verification failed: " ++ "age backend down")
      (.ok [("EXPOSED_BREAST_F", 8/10)])).nudity_detected = true := by
    rw [contentGate_verdict_true_iff]
    refine ⟨("EXPOSED_BREAST_F", 8/10), by simp, by simp [problematic_classes], ?_⟩
    have hn : (thresholds "normal").1 = 6/10 := rfl
    rw [hn]
    norm_num
  rw [hred, ht]
  simp

/-- C4: for every classification outcome reaching the content gate with no
underage short-circuit (every reported age estimate is at or above the age
threshold), the verdict is true iff at least one region whose label lies in
the fixed restricted set has confidence strictly above the nudity threshold,
and the returned confidence is the maximum over all regions including
non-restricted labels: it bounds every region's confidence and is either 0
or attained by some region. -/
theorem content_gate_verdict_and_confidence (s : String) (q : ℚ)
    (ageOutcome : Except String (Option ℚ))
    (hna : ∀ a, ageOutcome = .ok (some a) → (thresholds s).2 ≤ a)
    (dets : List (String × ℚ)) :
    ((sync_process_image s (.ok q) (.ok ()) ageOutcome (.ok dets)).nudity_detected = true ↔
        ∃ d ∈ dets, d.1 ∈ problematic_classes ∧ (thresholds s).1 < d.2) ∧
      (∀ d ∈ dets,
        d.2 ≤ (sync_process_image s (.ok q) (.ok ()) ageOutcome (.ok dets)).confidence_score) ∧
      ((sync_process_image s (.ok q) (.ok ()) ageOutcome (.ok dets)).confidence_score = 0 ∨
        ∃ d ∈ dets,
          (sync_process_image s (.ok q) (.ok ()) ageOutcome (.ok dets)).confidence_score = d.2) := by
  obtain ⟨ad, had⟩ := sync_process_age_pass s q ageOutcome hna (.ok dets)
  rw [had]
  refine ⟨contentGate_verdict_true_iff s ad q dets, ?_, ?_⟩
  · intro d hd
    rw [contentGate_ok_confidence]
    exact foldl_max_mem_le dets d hd 0
  · rw [contentGate_ok_confidence]
    exact foldl_max_eq_init_or_mem dets 0

/-- C4 witness: profile "normal", no face detected, one non-restricted
region ("FACE_FEMALE", 0.9). -/
theorem content_gate_verdict_and_confidence_witness :
    (∀ a : ℚ, (Except.ok none : Except String (Option ℚ)) = .ok (some a) →
        (thresholds "normal").2 ≤ a) ∧
      (((sync_process_image "normal" (.ok 1) (.ok ()) (.ok none)
            (.ok [("FACE_FEMALE", 9/10)])).nudity_detected = true ↔
          ∃ d ∈ [("FACE_FEMALE", (9:ℚ)/10)], d.1 ∈ problematic_classes ∧
            (thresholds "normal").1 < d.2) ∧
        (∀ d ∈ [("FACE_FEMALE", (9:ℚ)/10)],
          d.2 ≤ (sync_process_image "normal" (.ok 1) (.ok ()) (.ok none)
            (.ok [("FACE_FEMALE", 9/10)])).confidence_score) ∧
        ((sync_process_image "normal" (.ok 1) (.ok ()) (.ok none)
            (.ok [("FACE_FEMALE", 9/10)])).confidence_score = 0 ∨
          ∃ d ∈ [("FACE_FEMALE", (9:ℚ)/10)],
            (sync_process_image "normal" (.ok 1) (.ok ()) (.ok none)
              (.ok [("FACE_FEMALE", 9/10)])).confidence_score = d.2)) :=
  ⟨fun _ h => Option.noConfusion (Except.ok.inj h),
    content_gate_verdict_and_confidence "normal" 1 (.ok none)
      (fun _ h => Option.noConfusion (Except.ok.inj h)) [("FACE_FEMALE", 9/10)]⟩

/-- C5 (amended): the pipeline is total over all capability outcomes — it
always returns a decision instead of raising; a failure of the
classification capability (reached without an underage short-circuit) yields
verdict false with confidence 0.0 and an explanatory details string, while a
failure of the age-estimation capability records the failure in the details
and leaves the verdict to the content gate (so it need not be false). -/
theorem pipeline_capability_failure_defaults (s e : String) (q : ℚ)
    (ageOutcome : Except String (Option ℚ))
    (hna : ∀ a, ageOutcome = .ok (some a) → (thresholds s).2 ≤ a)
    (dets : List (String × ℚ)) :
    sync_process_image s (.ok q) (.ok ()) ageOutcome (.error e) =
        ⟨q, false, 0, "Detection failed: " ++ e, true, true⟩ ∧
      ((sync_process_image s (.ok q) (.ok ()) (.error e) (.ok dets)).nudity_detected = true ↔
        ∃ d ∈ dets, d.1 ∈ problematic_classes ∧ (thresholds s).1 < d.2) := by
  constructor
  · obtain ⟨ad, had⟩ := sync_process_age_pass s q ageOutcome hna (.error e)
    rw [had]
    rfl
  · have hred : sync_process_image s (.ok q) (.ok ()) (.error e) (.ok dets) =
        contentGate s q ("Age verification failed: " ++ e) (.ok dets) := rfl
    rw [hred, contentGate_verdict_true_iff]

/-- C5 witness: profile "normal", no face detected for the detect-failure
conjunct, and a failing age estimate with one restricted region for the
age-failure conjunct. -/
theorem pipeline_capability_failure_defaults_witness :
    (∀ a : ℚ, (Except.ok none : Except String (Option ℚ)) = .ok (some a) →
        (thresholds "normal").2 ≤ a) ∧
      (sync_process_image "normal" (.ok 1) (.ok ()) (.ok none) (.error "boom") =
          ⟨1, false, 0, "Detection failed: " ++ "boom", true, true⟩ ∧
        ((sync_process_image "normal" (.ok 1) (.ok ()) (.error "boom")
            (.ok [("EXPOSED_BREAST_F", 8/10)])).nudity_detected = true ↔
          ∃ d ∈ [("EXPOSED_BREAST_F", (8:ℚ)/10)], d.1 ∈ problematic_classes ∧
            (thresholds "normal").1 < d.2)) :=
  ⟨fun _ h => Option.noConfusion (Except.ok.inj h),
    pipeline_capability_failure_defaults "normal" "boom" 1 (.ok none)
      (fun _ h => Option.noConfusion (Except.ok.inj h)) [("EXPOSED_BREAST_F", 8/10)]⟩

/-- C7: a failed connection attempt at construction permanently selects the
in-memory backend: the constructed service has `use_redis = false` and no
client; in every state of that shape (which every later state then keeps)
each get/set/delete operates on the local bounded store — the result is the
local store's, for every behaviour of the remote oracle — no operation
re-enables the remote backend (no reconnection attempt exists), and
`get_stats` reports the "in-memory" backend with the local size and
capacity. -/
theorem cache_fallback_local_backend (V : Type) (e k : String) (v : V)
    (m : InMemoryCache V) (rget : String → Option V) (rsize now ttl : Nat) :
    CacheService.new V (.error e) = ⟨false, none, InMemoryCache.empty V 1000⟩ ∧
      CacheService.get rget now k ⟨false, none, m⟩ =
        (match m.get now k with
          | .ok (res, m₁) => (res, (⟨false, none, m₁⟩ : CacheService V))
          | .error _ => (none, ⟨false, none, m⟩)) ∧
      CacheService.set now k v ttl ⟨false, none, m⟩ =
        (match m.set now k v ttl with
          | .ok m₁ => (⟨false, none, m₁⟩ : CacheService V)
          | .error _ => ⟨false, none, m⟩) ∧
      CacheService.delete k ⟨false, none, m⟩ = ⟨false, none, m.delete k⟩ ∧
      (CacheService.get rget now k ⟨false, none, m⟩).2.use_redis = false ∧
      (CacheService.set now k v ttl ⟨false, none, m⟩).use_redis = false ∧
      (CacheService.delete k ⟨false, none, m⟩).use_redis = false ∧
      (CacheService.get rget now k ⟨false, none, m⟩).2.redis_client = none ∧
      (CacheService.set now k v ttl ⟨false, none, m⟩).redis_client = none ∧
      (CacheService.delete k ⟨false, none, m⟩).redis_client = none ∧
      CacheService.get_stats rsize ⟨false, none, m⟩ =
        ⟨true, "in-memory", m.size, some m.max_size⟩ := by
  have hcond : ¬ (((⟨false, none, m⟩ : CacheService V).use_redis : Prop) ∧
      (⟨false, none, m⟩ : CacheService V).redis_client.isSome = true) := by
    intro hc
    exact Bool.noConfusion hc.1
  have hget : CacheService.get rget now k ⟨false, none, m⟩ =
      (match m.get now k with
        | .ok (res, m₁) => (res, (⟨false, none, m₁⟩ : CacheService V))
        | .error _ => (none, ⟨false, none, m⟩)) := by
    unfold CacheService.get
    rw [if_neg hcond]
  have hset : CacheService.set now k v ttl ⟨false, none, m⟩ =
      (match m.set now k v ttl with
        | .ok m₁ => (⟨false, none, m₁⟩ : CacheService V)
        | .error _ => ⟨false, none, m⟩) := by
    unfold CacheService.set
    rw [if_neg hcond]
  have hdel : CacheService.delete k ⟨false, none, m⟩ = ⟨false, none, m.delete k⟩ := by
    unfold CacheService.delete
    rw [if_neg hcond]
  refine ⟨rfl, hget, hset, hdel, ?_, ?_, ?_, ?_, ?_, ?_, ?_⟩
  · rw [hget]
    rcases m.get now k with _ | ⟨res, m₁⟩ <;> rfl
  · rw [hset]
    rcases m.set now k v ttl with _ | m₁ <;> rfl
  · rw [hdel]
  · rw [hget]
    rcases m.get now k with _ | ⟨res, m₁⟩ <;> rfl
  · rw [hset]
    rcases m.set now k v ttl with _ | m₁ <;> rfl
  · rw [hdel]
  · unfold CacheService.get_stats
    rw [if_neg hcond]

theorem InMemoryCache.set_shape {V : Type} (now : Nat) (k : String) (v : V) (ttl : Nat)
    (c c₁ : InMemoryCache V) (h : c.set now k v ttl = .ok c₁) :
    ∃ c₀ : InMemoryCache V, c₁ = InMemoryCache.insertBind now k v ttl c₀ := by
  unfold InMemoryCache.set at h
  by_cases hcond : c.max_size ≤ c.cache.length ∧ k ∉ keysOf c.cache
  · rw [if_pos hcond] at h
    rcases hc : c.cache with _ | ⟨p, rest⟩ <;> rw [hc] at h
    · exact Except.noConfusion h
    · exact ⟨_, (Except.ok.inj h).symm⟩
  · rw [if_neg hcond] at h
    exact ⟨c, (Except.ok.inj h).symm⟩

/-- C9: on the local backend, `set key value ttl` at instant `now` followed
immediately by `get key` (no intervening operation) returns the stored
value, and at any instant strictly after `now + ttl` the `get` is a miss
that removes the expired entry from both the value map and the expiry
map. -/
theorem inmemory_ttl_roundtrip {V : Type} (c c₁ : InMemoryCache V)
    (now t₁ ttl : Nat) (k : String) (v : V)
    (httl : 0 < ttl) (hset : c.set now k v ttl = .ok c₁) :
    (∃ c₂ : InMemoryCache V, c₁.get now k = .ok (some v, c₂)) ∧
      (now + ttl < t₁ →
        ∃ c₂ : InMemoryCache V, c₁.get t₁ k = .ok (none, c₂) ∧
          k ∉ keysOf c₂.cache ∧ k ∉ keysOf c₂.expiry) := by
  obtain ⟨c₀, hc₁⟩ := InMemoryCache.set_shape now k v ttl c c₁ hset
  subst hc₁
  have hexp : alookup k (InMemoryCache.insertBind now k v ttl c₀).expiry =
      some (now + ttl) := alookup_touch_self k (now + ttl) c₀.expiry
  have hcache : alookup k (InMemoryCache.insertBind now k v ttl c₀).cache = some v :=
    alookup_touch_self k v c₀.cache
  constructor
  · refine ⟨⟨touch k v (InMemoryCache.insertBind now k v ttl c₀).cache,
      (InMemoryCache.insertBind now k v ttl c₀).expiry,
      (InMemoryCache.insertBind now k v ttl c₀).max_size⟩, ?_⟩
    unfold InMemoryCache.get
    simp only [hexp]
    rw [if_neg (by omega : ¬ now + ttl < now)]
    unfold InMemoryCache.getFresh
    simp only [hcache]
  · intro ht
    refine ⟨⟨aerase k (InMemoryCache.insertBind now k v ttl c₀).cache,
      aerase k (InMemoryCache.insertBind now k v ttl c₀).expiry,
      (InMemoryCache.insertBind now k v ttl c₀).max_size⟩, ?_, ?_, ?_⟩
    · unfold InMemoryCache.get
      simp only [hexp]
      rw [if_pos ht]
      simp only [hcache]
    · intro hc
      exact ((mem_keysOf_aerase k k _).1 hc).2 rfl
    · intro hc
      exact ((mem_keysOf_aerase k k _).1 hc).2 rfl

/-- C9 witness: the empty cache with capacity 1000, key "a", value "x",
ttl 5 set at instant 0, read back at instants 0 and 6. -/
theorem inmemory_ttl_roundtrip_witness :
    0 < 5 ∧
      (InMemoryCache.empty String 1000).set 0 "a" "x" 5 =
        .ok (InMemoryCache.insertBind 0 "a" "x" 5 (InMemoryCache.empty String 1000)) ∧
      ((∃ c₂ : InMemoryCache String,
          (InMemoryCache.insertBind 0 "a" "x" 5 (InMemoryCache.empty String 1000)).get 0 "a" =
            .ok (some "x", c₂)) ∧
        (0 + 5 < 6 →
          ∃ c₂ : InMemoryCache String,
            (InMemoryCache.insertBind 0 "a" "x" 5 (InMemoryCache.empty String 1000)).get 6 "a" =
              .ok (none, c₂) ∧ "a" ∉ keysOf c₂.cache ∧ "a" ∉ keysOf c₂.expiry)) :=
  ⟨by decide, rfl,
    inmemory_ttl_roundtrip (InMemoryCache.empty String 1000)
      (InMemoryCache.insertBind 0 "a" "x" 5 (InMemoryCache.empty String 1000))
      0 6 5 "a" "x" (by decide) rfl⟩

theorem InMemoryCache.getFresh_hit_inv {V : Type} (k : String) (c : InMemoryCache V)
    (v : V) (c₁ : InMemoryCache V) (h : c.getFresh k = (some v, c₁)) :
    alookup k c.cache = some v ∧ c₁ = ⟨touch k v c.cache, c.expiry, c.max_size⟩ := by
  unfold InMemoryCache.getFresh at h
  rcases hc : alookup k c.cache with _ | v₀ <;> rw [hc] at h
  · exact Option.noConfusion (congrArg Prod.fst h)
  · have hv : v₀ = v := Option.some.inj (congrArg Prod.fst h)
    refine ⟨?_, ?_⟩
    · rw [hv]
    · rw [← hv]
      exact (congrArg Prod.snd h).symm

theorem InMemoryCache.get_hit_inv {V : Type} (now : Nat) (k : String) (c : InMemoryCache V)
    (v : V) (c₁ : InMemoryCache V) (h : c.get now k = .ok (some v, c₁)) :
    alookup k c.cache = some v ∧ c₁ = ⟨touch k v c.cache, c.expiry, c.max_size⟩ := by
  unfold InMemoryCache.get at h
  rcases he : alookup k c.expiry with _ | ex <;> simp only [he] at h
  · exact InMemoryCache.getFresh_hit_inv k c v c₁ (Except.ok.inj h)
  · by_cases hlt : ex < now
    · rw [if_pos hlt] at h
      rcases hc : alookup k c.cache with _ | v₀ <;> rw [hc] at h
      · exact Except.noConfusion h
      · exact Option.noConfusion (congrArg Prod.fst (Except.ok.inj h))
    · rw [if_neg hlt] at h
      exact InMemoryCache.getFresh_hit_inv k c v c₁ (Except.ok.inj h)

/-- C8: on the local backend, (i) every successful operation from a
well-formed within-capacity state leaves at most `max_size` entries; (ii) a
read hit moves the touched key to the most-recently-used end; (iii) so does
a write; (iv) inserting a fresh key into a full cache evicts exactly the
least-recently-touched (head) key — that key leaves the key set, every other
key's membership is preserved, and the new key joins; (v) hence a key read
(hit) just before such an eviction round, with at least one other entry
present, survives the eviction. -/
theorem inmemory_lru_bound_and_eviction {V : Type} (c : InMemoryCache V)
    (hwf : c.WF) (hm : 1 ≤ c.max_size) (hs : c.size ≤ c.max_size) :
    (∀ (op : CacheOp V) (c₁ : InMemoryCache V),
      c.applyOp op = .ok c₁ → c₁.size ≤ c.max_size) ∧
    (∀ (now : Nat) (k : String) (v : V) (c₁ : InMemoryCache V),
      c.get now k = .ok (some v, c₁) → ∃ l, c₁.cache = l ++ [(k, v)]) ∧
    (∀ (now : Nat) (k : String) (v : V) (ttl : Nat) (c₁ : InMemoryCache V),
      c.set now k v ttl = .ok c₁ → ∃ l, c₁.cache = l ++ [(k, v)]) ∧
    (∀ (now : Nat) (k : String) (v : V) (ttl : Nat) (p : String × V)
        (rest : List (String × V)) (c₁ : InMemoryCache V),
      c.cache = p :: rest → c.size = c.max_size → k ∉ keysOf c.cache →
      c.set now k v ttl = .ok c₁ →
      p.1 ∉ keysOf c₁.cache ∧
        ∀ k₂, k₂ ≠ p.1 → (k₂ ∈ keysOf c₁.cache ↔ k₂ ∈ keysOf c.cache ∨ k₂ = k)) ∧
    (∀ (now : Nat) (k : String) (v : V) (c₁ : InMemoryCache V) (now₁ ttl : Nat)
        (k₁ : String) (v₁ : V) (c₂ : InMemoryCache V),
      c.get now k = .ok (some v, c₁) → 2 ≤ c₁.size → k₁ ∉ keysOf c₁.cache →
      c₁.set now₁ k₁ v₁ ttl = .ok c₂ → k ∈ keysOf c₂.cache) := by
  refine ⟨?_, ?_, ?_, ?_, ?_⟩
  · intro op c₁ h
    obtain ⟨c₁a, ha, _, hsz, hms⟩ := InMemoryCache.applyOp_ok c op hwf hm hs
    rw [ha] at h
    have : c₁a = c₁ := Except.ok.inj h
    rw [this] at hsz hms
    rw [hms] at hsz
    exact hsz
  · intro now k v c₁ h
    obtain ⟨_, hc₁⟩ := InMemoryCache.get_hit_inv now k c v c₁ h
    exact ⟨aerase k c.cache, by rw [hc₁]; rfl⟩
  · intro now k v ttl c₁ h
    obtain ⟨c₀, hc₁⟩ := InMemoryCache.set_shape now k v ttl c c₁ h
    exact ⟨aerase k c₀.cache, by rw [hc₁]; rfl⟩
  · intro now k v ttl p rest c₁ hcache hfull hknot hset
    obtain ⟨hnc, _, _⟩ := hwf
    have hcond : c.max_size ≤ c.cache.length ∧ k ∉ keysOf c.cache := by
      refine ⟨?_, hknot⟩
      simp only [InMemoryCache.size] at hfull
      omega
    unfold InMemoryCache.set at hset
    rw [if_pos hcond] at hset
    simp only [hcache] at hset
    have hc₁ : c₁ = InMemoryCache.insertBind now k v ttl
        ⟨aerase p.1 (p :: rest), aerase p.1 c.expiry, c.max_size⟩ :=
      (Except.ok.inj hset).symm
    have hpk : p.1 ≠ k := by
      intro hc
      apply hknot
      rw [hcache, ← hc]
      exact (mem_keysOf_cons p rest p.1).2 (Or.inl rfl)
    constructor
    · rw [hc₁]
      intro hmem
      have hmem' := (mem_keysOf_touch k p.1 v (aerase p.1 (p :: rest))).1 hmem
      rcases hmem' with hmem' | hmem'
      · exact ((mem_keysOf_aerase p.1 p.1 (p :: rest)).1 hmem').2 rfl
      · exact hpk hmem'
    · intro k₂ hk₂
      rw [hc₁, hcache]
      show k₂ ∈ keysOf (touch k v (aerase p.1 (p :: rest))) ↔ _
      rw [mem_keysOf_touch, mem_keysOf_aerase]
      constructor
      · rintro (⟨hmem, _⟩ | he)
        · exact Or.inl hmem
        · exact Or.inr he
      · rintro (hmem | he)
        · exact Or.inl ⟨hmem, hk₂⟩
        · exact Or.inr he
  · intro now k v c₁ now₁ ttl k₁ v₁ c₂ hget hsz hfresh hset
    obtain ⟨_, hc₁⟩ := InMemoryCache.get_hit_inv now k c v c₁ hget
    have hkc₁ : k ∈ keysOf c₁.cache := by
      rw [hc₁]
      exact (mem_keysOf_touch k k v c.cache).2 (Or.inr rfl)
    have hkk₁ : k ≠ k₁ := by
      intro hc
      rw [hc] at hkc₁
      exact hfresh hkc₁
    unfold InMemoryCache.set at hset
    by_cases hcond : c₁.max_size ≤ c₁.cache.length ∧ k₁ ∉ keysOf c₁.cache
    · rw [if_pos hcond] at hset
      rcases hqc : c₁.cache with _ | ⟨q, rest₁⟩
      · simp only [hqc] at hset
        exact Except.noConfusion hset
      · simp only [hqc] at hset
        have hc₂ : c₂ = InMemoryCache.insertBind now₁ k₁ v₁ ttl
            ⟨aerase q.1 (q :: rest₁), aerase q.1 c₁.expiry, c₁.max_size⟩ :=
          (Except.ok.inj hset).symm
        have hqk : q.1 ≠ k := by
          rcases haer : aerase k c.cache with _ | ⟨q₀, t₀⟩
          · exfalso
            have : c₁.cache = [(k, v)] := by
              rw [hc₁]
              show touch k v c.cache = [(k, v)]
              unfold touch
              rw [haer]
              rfl
            simp only [InMemoryCache.size] at hsz
            rw [this] at hsz
            simp at hsz
          · have hform : c₁.cache = q₀ :: (t₀ ++ [(k, v)]) := by
              rw [hc₁]
              show touch k v c.cache = _
              unfold touch
              rw [haer]
              rfl
            have hq : q = q₀ := by
              rw [hqc] at hform
              exact (List.cons.inj hform).1
            have hq₀ : q₀ ∈ aerase k c.cache := by
              rw [haer]
              exact List.mem_cons_self q₀ t₀
            have : q₀.1 ∈ keysOf (aerase k c.cache) := List.mem_map_of_mem Prod.fst hq₀
            rw [hq]
            exact ((mem_keysOf_aerase k q₀.1 c.cache).1 this).2
        rw [hc₂]
        apply (mem_keysOf_touch k₁ k v₁ (aerase q.1 (q :: rest₁))).2
        left
        rw [mem_keysOf_aerase]
        refine ⟨?_, hqk.symm⟩
        rw [← hqc]
        exact hkc₁
    · rw [if_neg hcond] at hset
      have hc₂ : c₂ = InMemoryCache.insertBind now₁ k₁ v₁ ttl c₁ :=
        (Except.ok.inj hset).symm
      rw [hc₂]
      exact (mem_keysOf_touch k₁ k v₁ c₁.cache).2 (Or.inl hkc₁)

/-- C8 witness: the empty cache of capacity 5 satisfies the well-formedness,
positive-capacity, and within-capacity hypotheses. -/
theorem inmemory_lru_bound_and_eviction_witness :
    (InMemoryCache.empty String 5).WF ∧
      1 ≤ (InMemoryCache.empty String 5).max_size ∧
      (InMemoryCache.empty String 5).size ≤ (InMemoryCache.empty String 5).max_size ∧
      ((∀ (op : CacheOp String) (c₁ : InMemoryCache String),
          (InMemoryCache.empty String 5).applyOp op = .ok c₁ →
            c₁.size ≤ (InMemoryCache.empty String 5).max_size) ∧
        (∀ (now : Nat) (k : String) (v : String) (c₁ : InMemoryCache String),
          (InMemoryCache.empty String 5).get now k = .ok (some v, c₁) →
            ∃ l, c₁.cache = l ++ [(k, v)]) ∧
        (∀ (now : Nat) (k : String) (v : String) (ttl : Nat) (c₁ : InMemoryCache String),
          (InMemoryCache.empty String 5).set now k v ttl = .ok c₁ →
            ∃ l, c₁.cache = l ++ [(k, v)]) ∧
        (∀ (now : Nat) (k : String) (v : String) (ttl : Nat) (p : String × String)
            (rest : List (String × String)) (c₁ : InMemoryCache String),
          (InMemoryCache.empty String 5).cache = p :: rest →
          (InMemoryCache.empty String 5).size = (InMemoryCache.empty String 5).max_size →
          k ∉ keysOf (InMemoryCache.empty String 5).cache →
          (InMemoryCache.empty String 5).set now k v ttl = .ok c₁ →
          p.1 ∉ keysOf c₁.cache ∧
            ∀ k₂, k₂ ≠ p.1 →
              (k₂ ∈ keysOf c₁.cache ↔
                k₂ ∈ keysOf (InMemoryCache.empty String 5).cache ∨ k₂ = k)) ∧
        (∀ (now : Nat) (k : String) (v : String) (c₁ : InMemoryCache String)
            (now₁ ttl : Nat) (k₁ : String) (v₁ : String) (c₂ : InMemoryCache String),
          (InMemoryCache.empty String 5).get now k = .ok (some v, c₁) →
          2 ≤ c₁.size → k₁ ∉ keysOf c₁.cache →
          c₁.set now₁ k₁ v₁ ttl = .ok c₂ → k ∈ keysOf c₂.cache)) :=
  ⟨InMemoryCache.empty_WF String 5, by decide, by decide,
    inmemory_lru_bound_and_eviction (InMemoryCache.empty String 5)
      (InMemoryCache.empty_WF String 5) (by decide) (by decide)⟩

/-- C10: starting from a freshly constructed local cache of positive
capacity, every sequence of get/set/delete operations succeeds — in
particular the expiry branch of `get`, whose `del self.cache[key]` has no
membership guard, never encounters a key present in the expiry map but
absent from the value map — and afterwards the two maps bind exactly the
same key set. -/
theorem inmemory_keysets_aligned (V : Type) (ms : Nat) (hm : 1 ≤ ms)
    (ops : List (CacheOp V)) :
    ∃ c₁ : InMemoryCache V, (InMemoryCache.empty V ms).runOps ops = .ok c₁ ∧
      ∀ k, k ∈ keysOf c₁.cache ↔ k ∈ keysOf c₁.expiry := by
  obtain ⟨c₁, h, hwf, _, _⟩ := InMemoryCache.runOps_ok ops (InMemoryCache.empty V ms)
    (InMemoryCache.empty_WF V ms) hm (Nat.zero_le ms)
  exact ⟨c₁, h, hwf.2.2⟩

/-- C10 witness: capacity 1000 and a concrete set/get/delete sequence. -/
theorem inmemory_keysets_aligned_witness :
    1 ≤ 1000 ∧
      ∃ c₁ : InMemoryCache Nat, (InMemoryCache.empty Nat 1000).runOps
          [CacheOp.set 0 "a" 7 60, CacheOp.get 1 "a", CacheOp.del "b"] = .ok c₁ ∧
        ∀ k, k ∈ keysOf c₁.cache ↔ k ∈ keysOf c₁.expiry :=
  ⟨by decide, inmemory_keysets_aligned Nat 1000 (by decide)
    [CacheOp.set 0 "a" 7 60, CacheOp.get 1 "a", CacheOp.del "b"]⟩
